import Mathlib

/-!
Shallow embedding of the CLI Task Manager core (`task/main.py`): the in-memory
task store `TaskManager` and its JSON persistence codec (`to_dict` / `load`).

Modelling conventions:
* JSON documents (the result of `json.load`) are the inductive `JValue`.
  Python `None` is identified with JSON `null`: the two are indistinguishable
  everywhere this program looks at them.  JSON numbers are modelled as
  integers; no behaviour relevant here involves fractional numbers.
* Python dicts are insertion-ordered association lists; a dict produced by
  `json.load` has pairwise distinct keys (stated as a hypothesis where it
  matters).
* Exceptions are modelled with `Option`; the `try/except` wrapper of
  `TaskManager.load` turns an exception into returning `false` together with
  whatever state had been mutated before the exception was raised.
* File I/O (`open`, `json.dump`/`json.load`, `os.path.exists`) is outside the
  embedding: `load_data` is the loader applied to an already-parsed document,
  and `to_dict` is the document that `save` writes.
-/

namespace TaskMain

/-- A JSON value as produced by `json.load`; `null` also stands for Python `None`. -/
inductive JValue where
  | null : JValue
  | bool : Bool → JValue
  | num : Int → JValue
  | str : String → JValue
  | arr : List JValue → JValue
  | obj : List (String × JValue) → JValue

mutual

/-- Boolean equality on `JValue` (the automatic `DecidableEq` derivation does
not support this nested inductive, so it is defined by hand). -/
def jbeq : JValue → JValue → Bool
  | .null, .null => true
  | .bool a, .bool b => a == b
  | .num a, .num b => a == b
  | .str a, .str b => a == b
  | .arr xs, .arr ys => jbeqList xs ys
  | .obj xs, .obj ys => jbeqObj xs ys
  | _, _ => false

/-- Boolean equality on lists of `JValue`. -/
def jbeqList : List JValue → List JValue → Bool
  | [], [] => true
  | x :: xs, y :: ys => jbeq x y && jbeqList xs ys
  | _, _ => false

/-- Boolean equality on key-value lists of `JValue`. -/
def jbeqObj : List (String × JValue) → List (String × JValue) → Bool
  | [], [] => true
  | (k, v) :: xs, (k', v') :: ys => k == k' && jbeq v v' && jbeqObj xs ys
  | _, _ => false

end

mutual

/-- Soundness and completeness of `jbeq`. -/
theorem jbeq_iff : ∀ a b, jbeq a b = true ↔ a = b
  | .null, b => by cases b <;> simp [jbeq]
  | .bool a, b => by cases b <;> simp [jbeq]
  | .num a, b => by cases b <;> simp [jbeq]
  | .str a, b => by cases b <;> simp [jbeq]
  | .arr xs, b => by
    cases b <;> simp [jbeq]
    exact jbeqList_iff xs _
  | .obj xs, b => by
    cases b <;> simp [jbeq]
    exact jbeqObj_iff xs _

/-- Soundness and completeness of `jbeqList`. -/
theorem jbeqList_iff : ∀ xs ys, jbeqList xs ys = true ↔ xs = ys
  | [], ys => by cases ys <;> simp [jbeqList]
  | x :: xs, ys => by
    cases ys with
    | nil => simp [jbeqList]
    | cons y ys =>
      simp [jbeqList, Bool.and_eq_true, jbeq_iff x y, jbeqList_iff xs ys]

/-- Soundness and completeness of `jbeqObj`. -/
theorem jbeqObj_iff : ∀ xs ys, jbeqObj xs ys = true ↔ xs = ys
  | [], ys => by cases ys <;> simp [jbeqObj]
  | (k, v) :: xs, ys => by
    cases ys with
    | nil => simp [jbeqObj]
    | cons y ys =>
      obtain ⟨k', v'⟩ := y
      simp [jbeqObj, Bool.and_eq_true, jbeq_iff v v', jbeqObj_iff xs ys, Prod.ext_iff]

end

instance : DecidableEq JValue := fun a b => decidable_of_iff _ (jbeq_iff a b)

/-- Python `dict.get(k)`: the value at the first binding of `k`, if any. -/
def dget {α : Type} : List (String × α) → String → Option α
  | [], _ => none
  | (k', v) :: rest, k => if k' = k then some v else dget rest k

/-- Python `dict[k] = v`: overwrite the binding in place when present, append when absent. -/
def dset {α : Type} : List (String × α) → String → α → List (String × α)
  | [], k, v => [(k, v)]
  | (k', v') :: rest, k, v =>
    if k' = k then (k', v) :: rest else (k', v') :: dset rest k v

/-- Python `dict.setdefault(k, v)`: insert `v` at `k` only when `k` is absent. -/
def dsetdefault {α : Type} (m : List (String × α)) (k : String) (v : α) :
    List (String × α) :=
  match dget m k with
  | some _ => m
  | none => m ++ [(k, v)]

/-- Python `str.lower()` (character-wise lowering; `String.toLower` itself is
not used because its implementation does not reduce in the kernel). -/
def pyLower (s : String) : String :=
  String.mk (s.data.map Char.toLower)

/-- Python `str.capitalize()`: first character upper-cased, the rest lower-cased. -/
def pyCapitalize (s : String) : String :=
  match s.data with
  | [] => ""
  | c :: cs => String.mk (c.toUpper :: cs.map Char.toLower)

/-- Python truthiness of a JSON value. -/
def truthy : JValue → Bool
  | .null => false
  | .bool b => b
  | .num n => n != 0
  | .str s => s != ""
  | .arr xs => !xs.isEmpty
  | .obj kvs => !kvs.isEmpty

/-- Python `for x in v`: the list of iterates, or `none` (a `TypeError`) when
`v` is not iterable.  Iterating a string yields its one-character strings,
iterating a dict yields its keys. -/
def pyIterate : JValue → Option (List JValue)
  | .arr xs => some xs
  | .str s => some (s.data.map fun c => .str (String.mk [c]))
  | .obj kvs => some (kvs.map fun kv => .str kv.1)
  | _ => none

/-- Python `int(v)` on a JSON value; `none` when it raises. -/
def pyInt : JValue → Option Int
  | .num n => some n
  | .bool b => some (if b then 1 else 0)
  | .str s => s.toInt?
  | _ => none

/-- The `TaskStatus` enum. -/
inductive TaskStatus where
  | PENDING : TaskStatus
  | DONE : TaskStatus
  deriving Repr, DecidableEq

/-- The `.value` of a `TaskStatus` member. -/
def TaskStatus.value : TaskStatus → String
  | .PENDING => "Pending"
  | .DONE => "Done"

/-- The `Task` dataclass.  `name` and `status` are dynamically typed in Python
(the loader can store any JSON value, or `None`, in them), so they are
modelled as `JValue`; an ordinary string name is `.str name`. -/
structure Task where
  id : Int
  name : JValue
  status : JValue
  deriving DecidableEq

/-- The mutable state of a `TaskManager`.  `current_file` is not modelled;
instead each mutating operation reports whether `_autosave` was invoked. -/
structure TaskManager where
  daily_tasks : List (String × List Task)
  task_id : List (String × Int)
  deriving DecidableEq

/-- The eight canonical bucket names, in construction order. -/
def days : List String :=
  ["monday", "tuesday", "wednesday", "thursday", "friday", "saturday", "sunday", "general"]

/-- Constructor `TaskManager.__init__`. -/
def TaskManager.init : TaskManager :=
  { daily_tasks := days.map fun d => (d, []),
    task_id := days.map fun d => (d, 0) }

/-- Serializer `TaskManager.to_dict`: the canonical document written by `save`. -/
def TaskManager.to_dict (tm : TaskManager) : JValue :=
  .obj (tm.daily_tasks.map fun b =>
    (pyCapitalize b.1, .arr (b.2.map fun t => .obj [("task", t.name), ("status", t.status)])))

/-- Bucket-name normalization in `add`: `(day or "").lower() or "general"`. -/
def normalizeDay (day : String) : String :=
  if pyLower day = "" then "general" else pyLower day

/-- Method `TaskManager.add`.  The two `getD` fallbacks stand for the `task_id[day_key]`
lookups, whose `KeyError` is unreachable: the key was just inserted by
`setdefault` when the bucket is new, and every reachable state has a counter
for every existing bucket (see the invariant theorems). -/
def TaskManager.add (tm : TaskManager) (day : String) (name : String)
    (status : TaskStatus) : TaskManager × Task :=
  let day_key := normalizeDay day
  let tm1 :=
    if (dget tm.daily_tasks day_key).isSome then tm
    else { daily_tasks := tm.daily_tasks ++ [(day_key, [])],
           task_id := dsetdefault tm.task_id day_key 0 }
  let next_id := (dget tm1.task_id day_key).getD 0
  let task : Task := ⟨next_id, .str name, .str status.value⟩
  ({ daily_tasks := dset tm1.daily_tasks day_key (((dget tm1.daily_tasks day_key).getD []) ++ [task]),
     task_id := dset tm1.task_id day_key (next_id + 1) },
   task)

/-- The effective bucket value in the canonical branch of `load`:
`data.get(d.capitalize(), data.get(d, []))`, with a non-dict document
yielding `[]`. -/
def canonTasksList (data : JValue) (d : String) : JValue :=
  match data with
  | .obj kvs => (dget kvs (pyCapitalize d)).getD ((dget kvs d).getD (.arr []))
  | _ => .arr []

/-- The name stored for one entry in the canonical branch:
`t.get("task")`, and when that is `None` (field absent, or present with value
`null`), the fallback `t.get("name")`; a non-dict entry gets `""`. -/
def canonEntryName (t : JValue) : JValue :=
  match t with
  | .obj kvs =>
    match (dget kvs "task").getD .null with
    | .null => (dget kvs "name").getD .null
    | v => v
  | _ => .str ""

/-- The status stored for one entry in the canonical branch:
`t.get("status") if isinstance(t, dict) else "Pending"`.  Note that a dict
entry with no `status` field yields `None` (modelled `.null`), not
`"Pending"`. -/
def canonEntryStatus (t : JValue) : JValue :=
  match t with
  | .obj kvs => (dget kvs "status").getD .null
  | _ => .str "Pending"

/-- The task list built by the canonical branch's inner loop, with `next_id`
starting at `i`: every iterate is appended, with sequential ids. -/
def canonTasks (i : Nat) : List JValue → List Task
  | [] => []
  | t :: rest => ⟨(i : Int), canonEntryName t, canonEntryStatus t⟩ :: canonTasks (i + 1) rest

/-- The iterates of `for t in tasks_list or []`; `none` models the
`TypeError` raised on a truthy non-iterable bucket value. -/
def canonItems (data : JValue) (d : String) : Option (List JValue) :=
  let tl := canonTasksList data d
  if truthy tl then pyIterate tl else some []

/-- The canonical branch's loop over the eight day names.  On a `TypeError`
the partially mutated state is kept (the bucket was already reset to `[]`)
and `false` is returned, mirroring the `except` handler of `load`. -/
def loadCanonicalDays (data : JValue) : List String → TaskManager → TaskManager × Bool
  | [], tm => (tm, true)
  | d :: ds, tm =>
    let tm1 : TaskManager := { tm with daily_tasks := dset tm.daily_tasks d [] }
    match canonItems data d with
    | none => (tm1, false)
    | some items =>
      loadCanonicalDays data ds
        { daily_tasks := dset tm1.daily_tasks d (canonTasks 0 items),
          task_id := dset tm1.task_id d (items.length : Int) }

/-- The canonical branch of `load`: `self.daily_tasks = {}` followed by the
loop over the eight days (`task_id` is not cleared in this branch). -/
def loadCanonical (tm : TaskManager) (data : JValue) : TaskManager × Bool :=
  loadCanonicalDays data days { tm with daily_tasks := [] }

/-- One legacy entry:
`Task(int(t.get("id", i)), t.get("name", ""), t.get("status", "Pending"))`;
`none` models the exception raised by `.get` on a non-dict entry or by
`int(...)` on a non-numeric id. -/
def legacyTask (i : Nat) (t : JValue) : Option Task :=
  match t with
  | .obj kvs => do
    let tid ← match dget kvs "id" with
      | some v => pyInt v
      | none => some (i : Int)
    pure ⟨tid, (dget kvs "name").getD (.str ""), (dget kvs "status").getD (.str "Pending")⟩
  | _ => none

/-- Conversion `[... for i, t in enumerate(tasks)]` in the legacy branch, with positions
starting at `i`. -/
def legacyTasks (i : Nat) : List JValue → Option (List Task)
  | [] => some []
  | t :: rest => do
    let a ← legacyTask i t
    let rest' ← legacyTasks (i + 1) rest
    pure (a :: rest')

/-- One legacy bucket: iterate the (arbitrary) bucket value and convert every
entry; `none` models an exception. -/
def legacyBucket (v : JValue) : Option (List Task) := do
  let items ← pyIterate v
  legacyTasks 0 items

/-- The legacy branch's dict comprehension over `daily.items()`.  Keys of a
parsed JSON object are pairwise distinct, so a plain map is faithful. -/
def legacyBuckets : List (String × JValue) → Option (List (String × List Task))
  | [] => some []
  | (d, v) :: rest => do
    let ts ← legacyBucket v
    let rest' ← legacyBuckets rest
    pure ((d, ts) :: rest')

/-- Python `max((t.id for t in ts), default=-1)`. -/
def maxId : List Task → Int
  | [] => -1
  | t :: rest => max t.id (maxId rest)

/-- The legacy branch of `load`.  The whole dict comprehension is evaluated
before `self.daily_tasks` is assigned, so an exception leaves the state
untouched; afterwards the eight canonical days are `setdefault`-ed in and
`task_id` is rebuilt from the actual task ids. -/
def loadLegacy (tm : TaskManager) (data : JValue) : TaskManager × Bool :=
  match data with
  | .obj kvs =>
    match dget kvs "daily_tasks" with
    | some (.obj dkvs) =>
      match legacyBuckets dkvs with
      | none => (tm, false)
      | some bs =>
        let dt := days.foldl (fun m d => dsetdefault m d []) bs
        ({ daily_tasks := dt,
           task_id := dt.map fun b => (b.1, maxId b.2 + 1) }, true)
    | _ => (tm, false)
  | _ => (tm, false)

/-- The format detection `isinstance(data, dict) and "daily_tasks" in data`. -/
def isLegacyShape : JValue → Bool
  | .obj kvs => (dget kvs "daily_tasks").isSome
  | _ => false

/-- Loader `TaskManager.load` applied to an already-parsed document: the pure part of
the loader (file lookup and JSON parsing are outside the embedding).  Returns
the new state and the boolean result; `false` keeps whatever was mutated
before the exception, as the `except` handler does. -/
def load_data (tm : TaskManager) (data : JValue) : TaskManager × Bool :=
  if isLegacyShape data then loadLegacy tm data else loadCanonical tm data

/-- The observable (bucket, name, status) triples of a list of buckets. -/
def bucketsTriples : List (String × List Task) → List (String × JValue × JValue)
  | [] => []
  | b :: rest => (b.2.map fun t => (b.1, t.name, t.status)) ++ bucketsTriples rest

/-- The observable (bucket, name, status) triples of a session. -/
def triples (tm : TaskManager) : List (String × JValue × JValue) :=
  bucketsTriples tm.daily_tasks

/-- The session invariant: every existing bucket has a next-id counter, and
the counter is strictly greater than every id present in the bucket. -/
def Inv (tm : TaskManager) : Prop :=
  ∀ b ∈ tm.daily_tasks, ∃ c, dget tm.task_id b.1 = some c ∧ ∀ t ∈ b.2, t.id < c

/-- Replace (via `f`) the first task whose id is `i`; also return whether a
match was found.  This is the linear scan shared by `edit_task_status` and
`edit_task_name`. -/
def editFirst (f : Task → Task) (i : Int) : List Task → List Task × Bool
  | [] => ([], false)
  | t :: rest =>
    if t.id = i then (f t :: rest, true)
    else
      let r := editFirst f i rest
      (t :: r.1, r.2)

/-- Method `TaskManager.edit_task_status`.  Returns (new state, found, autosave-invoked). -/
def TaskManager.edit_task_status (tm : TaskManager) (day : String) (index : Int)
    (status : TaskStatus) : TaskManager × Bool × Bool :=
  match dget tm.daily_tasks (pyLower day) with
  | none => (tm, false, false)
  | some ts =>
    let r := editFirst (fun t => { t with status := .str status.value }) index ts
    if r.2 then
      ({ tm with daily_tasks := dset tm.daily_tasks (pyLower day) r.1 }, true, true)
    else (tm, false, false)

/-- Method `TaskManager.edit_task_name`.  Returns (new state, autosave-invoked); the
Python method returns `None`, so only the autosave flag is reported. -/
def TaskManager.edit_task_name (tm : TaskManager) (day : String) (tid : Int)
    (name : String) : TaskManager × Bool :=
  match dget tm.daily_tasks (pyLower day) with
  | none => (tm, false)
  | some ts =>
    let r := editFirst (fun t => { t with name := .str name }) tid ts
    if r.2 then
      ({ tm with daily_tasks := dset tm.daily_tasks (pyLower day) r.1 }, true)
    else (tm, false)

/-! Lemmas about the dictionary helpers. -/

theorem dget_dset_self {α : Type} (m : List (String × α)) (k : String) (v : α) :
    dget (dset m k v) k = some v := by
  induction m with
  | nil => simp [dget, dset]
  | cons b rest ih =>
    obtain ⟨k', v'⟩ := b
    by_cases h : k' = k <;> simp [dget, dset, h, ih]

theorem dget_dset_of_ne {α : Type} (m : List (String × α)) {k k' : String} (v : α)
    (h : k' ≠ k) : dget (dset m k v) k' = dget m k' := by
  have h' : k ≠ k' := Ne.symm h
  induction m with
  | nil => simp [dget, dset, h']
  | cons b rest ih =>
    obtain ⟨k₀, v₀⟩ := b
    by_cases h₀ : k₀ = k
    · subst h₀
      simp [dget, dset, h']
    · simp [dget, dset, h₀, ih]

theorem mem_dset {α : Type} {m : List (String × α)} {k : String} {v : α}
    {b : String × α} (h : b ∈ dset m k v) : b = (k, v) ∨ b ∈ m := by
  induction m with
  | nil => simpa [dset] using h
  | cons b₀ rest ih =>
    obtain ⟨k₀, v₀⟩ := b₀
    by_cases h₀ : k₀ = k
    · subst h₀
      rcases (by simpa [dset] using h : b = (k₀, v) ∨ b ∈ rest) with h₁ | h₁
      · exact Or.inl h₁
      · exact Or.inr (List.mem_cons_of_mem _ h₁)
    · rcases (by simpa [dset, h₀] using h : b = (k₀, v₀) ∨ b ∈ dset rest k v) with h₁ | h₁
      · exact Or.inr (by simp [h₁])
      · rcases ih h₁ with h₂ | h₂
        · exact Or.inl h₂
        · exact Or.inr (List.mem_cons_of_mem _ h₂)

theorem dget_mem {α : Type} {m : List (String × α)} {k : String} {v : α}
    (h : dget m k = some v) : (k, v) ∈ m := by
  induction m with
  | nil => simp [dget] at h
  | cons b rest ih =>
    obtain ⟨k₀, v₀⟩ := b
    by_cases h₀ : k₀ = k
    · subst h₀
      simp [dget] at h
      simp [h]
    · simp [dget, h₀] at h
      exact List.mem_cons_of_mem _ (ih h)

theorem dget_append {α : Type} (m₁ m₂ : List (String × α)) (k : String) :
    dget (m₁ ++ m₂) k = match dget m₁ k with
      | some v => some v
      | none => dget m₂ k := by
  induction m₁ with
  | nil => simp [dget]
  | cons b rest ih =>
    obtain ⟨k₀, v₀⟩ := b
    by_cases h₀ : k₀ = k <;> simp [dget, h₀, ih]

theorem dget_eq_none_iff {α : Type} (m : List (String × α)) (k : String) :
    dget m k = none ↔ k ∉ m.map Prod.fst := by
  induction m with
  | nil => simp [dget]
  | cons b rest ih =>
    obtain ⟨k₀, v₀⟩ := b
    by_cases h₀ : k₀ = k
    · subst h₀
      simp [dget]
    · simp [dget, h₀, ih, Ne.symm h₀]

theorem dset_append_fresh {α : Type} {m : List (String × α)} {k : String}
    (x y : α) (h : dget m k = none) : dset (m ++ [(k, x)]) k y = m ++ [(k, y)] := by
  induction m with
  | nil => simp [dset]
  | cons b rest ih =>
    obtain ⟨k₀, v₀⟩ := b
    by_cases h₀ : k₀ = k
    · simp [dget, h₀] at h
    · simp [dget, h₀] at h
      simp [dset, h₀, ih h]

theorem dkeys_dset_present {α : Type} {m : List (String × α)} {k : String} (v : α)
    (h : (dget m k).isSome) : (dset m k v).map Prod.fst = m.map Prod.fst := by
  induction m with
  | nil => simp [dget] at h
  | cons b rest ih =>
    obtain ⟨k₀, v₀⟩ := b
    by_cases h₀ : k₀ = k
    · simp [dset, h₀]
    · simp [dget, h₀] at h
      simp [dset, h₀, ih h]

theorem dkeys_dset_absent {α : Type} {m : List (String × α)} {k : String} (v : α)
    (h : dget m k = none) : (dset m k v).map Prod.fst = m.map Prod.fst ++ [k] := by
  induction m with
  | nil => simp [dset]
  | cons b rest ih =>
    obtain ⟨k₀, v₀⟩ := b
    by_cases h₀ : k₀ = k
    · simp [dget, h₀] at h
    · simp [dget, h₀] at h
      simp [dset, h₀, ih h]

theorem dget_dsetdefault {α : Type} (m : List (String × α)) (k k' : String) (v : α) :
    dget (dsetdefault m k v) k'
      = if k' = k then some ((dget m k).getD v) else dget m k' := by
  unfold dsetdefault
  rcases h : dget m k with _ | w
  · by_cases h' : k' = k
    · subst h'
      simp [dget_append, h, dget]
    · rw [if_neg h', dget_append]
      rcases h'' : dget m k' with _ | u
      · simp [dget, Ne.symm h']
      · simp
  · by_cases h' : k' = k <;> simp [h', h]

theorem foldl_dsetdefault_dget {α : Type} (v : α) (ds : List String)
    (m : List (String × α)) (k : String) :
    dget (ds.foldl (fun m d => dsetdefault m d v) m) k
      = match dget m k with
        | some w => some w
        | none => if k ∈ ds then some v else none := by
  induction ds generalizing m with
  | nil =>
    rcases h : dget m k with _ | w <;> simp [h]
  | cons d ds ih =>
    simp only [List.foldl_cons, ih, dget_dsetdefault]
    by_cases h : k = d
    · subst h
      rcases h' : dget m k with _ | w <;> simp [h', List.mem_cons]
    · rcases h' : dget m k with _ | w <;> simp [h, h', List.mem_cons]

theorem dkeys_dsetdefault {α : Type} (m : List (String × α)) (k : String) (v : α) :
    (dsetdefault m k v).map Prod.fst = m.map Prod.fst
      ∨ (dsetdefault m k v).map Prod.fst = m.map Prod.fst ++ [k] := by
  unfold dsetdefault
  rcases h : dget m k with _ | w <;> simp

theorem nodup_dget_mem {α : Type} {m : List (String × α)} {b : String × α}
    (hnd : (m.map Prod.fst).Nodup) (h : b ∈ m) : dget m b.1 = some b.2 := by
  induction m with
  | nil => simp at h
  | cons b₀ rest ih =>
    obtain ⟨k₀, v₀⟩ := b₀
    simp only [List.map_cons, List.nodup_cons] at hnd
    rcases List.mem_cons.mp h with h₁ | h₁
    · subst h₁
      simp [dget]
    · have : k₀ ≠ b.1 := by
        intro he
        exact hnd.1 (he ▸ (List.mem_map.mpr ⟨b, h₁, rfl⟩))
      simp [dget, this, ih hnd.2 h₁]

theorem dget_map_val {α β : Type} (g : α → β) (m : List (String × α)) (k : String) :
    dget (m.map fun b => (b.1, g b.2)) k = (dget m k).map g := by
  induction m with
  | nil => simp [dget]
  | cons b rest ih =>
    obtain ⟨k₀, v₀⟩ := b
    by_cases h₀ : k₀ = k <;> simp [dget, h₀, ih]

theorem dset_absent {α : Type} {m : List (String × α)} {k : String} (v : α)
    (h : dget m k = none) : dset m k v = m ++ [(k, v)] := by
  induction m with
  | nil => simp [dset]
  | cons b rest ih =>
    obtain ⟨k₀, v₀⟩ := b
    by_cases h₀ : k₀ = k
    · simp [dget, h₀] at h
    · simp [dget, h₀] at h
      simp [dset, h₀, ih h]

/-! Lemmas about the linear scan of the edit operations. -/

theorem editFirst_not_found (f : Task → Task) (i : Int) (ts : List Task)
    (h : ∀ t ∈ ts, t.id ≠ i) : editFirst f i ts = (ts, false) := by
  induction ts with
  | nil => rfl
  | cons t rest ih =>
    have ht := h t (by simp)
    simp [editFirst, ht, ih fun u hu => h u (List.mem_cons_of_mem _ hu)]

theorem editFirst_found (f : Task → Task) (i : Int) (pre : List Task) (t : Task)
    (post : List Task) (hpre : ∀ u ∈ pre, u.id ≠ i) (ht : t.id = i) :
    editFirst f i (pre ++ t :: post) = (pre ++ f t :: post, true) := by
  induction pre with
  | nil => simp [editFirst, ht]
  | cons u pre ih =>
    have hu := hpre u (by simp)
    simp [editFirst, hu, ih fun w hw => hpre w (List.mem_cons_of_mem _ hw)]

theorem editFirst_snd_iff (f : Task → Task) (i : Int) (ts : List Task) :
    (editFirst f i ts).2 = true ↔ ∃ t ∈ ts, t.id = i := by
  induction ts with
  | nil => simp [editFirst]
  | cons t rest ih =>
    by_cases h : t.id = i <;> simp [editFirst, h, ih]

theorem editFirst_map_id (f : Task → Task) (hf : ∀ t, (f t).id = t.id) (i : Int)
    (ts : List Task) : ((editFirst f i ts).1).map Task.id = ts.map Task.id := by
  induction ts with
  | nil => rfl
  | cons t rest ih =>
    by_cases h : t.id = i <;> simp [editFirst, h, hf, ih]

/-! Lemmas about the canonical loader's building blocks. -/

theorem canonTasks_length (i : Nat) (xs : List JValue) :
    (canonTasks i xs).length = xs.length := by
  induction xs generalizing i with
  | nil => rfl
  | cons x rest ih => simp [canonTasks, ih]

theorem canonTasks_mem_id_lt (xs : List JValue) :
    ∀ (i : Nat), ∀ t ∈ canonTasks i xs, t.id < (i : Int) + xs.length := by
  induction xs with
  | nil => intro i t ht; simp [canonTasks] at ht
  | cons x rest ih =>
    intro i t ht
    rcases List.mem_cons.mp ht with h | h
    · subst h
      simp
    · have := ih (i + 1) t h
      simp at this ⊢
      omega

theorem canonTasks_map_status (i : Nat) (xs : List JValue) :
    (canonTasks i xs).map Task.status = xs.map canonEntryStatus := by
  induction xs generalizing i with
  | nil => rfl
  | cons x rest ih => simp [canonTasks, ih]

theorem canonEntryName_entry (n s : JValue) :
    canonEntryName (.obj [("task", n), ("status", s)]) = n := by
  cases n <;> simp [canonEntryName, dget]

theorem canonEntryStatus_entry (n s : JValue) :
    canonEntryStatus (.obj [("task", n), ("status", s)]) = s := by
  simp [canonEntryStatus, dget]

theorem canonItems_arr {data : JValue} {d : String} {xs : List JValue}
    (h : canonTasksList data d = .arr xs) : canonItems data d = some xs := by
  unfold canonItems
  rw [h]
  cases xs with
  | nil => simp [truthy, pyIterate]
  | cons x rest => simp [truthy, pyIterate]

theorem lt_maxId_succ : ∀ (ts : List Task), ∀ t ∈ ts, t.id < maxId ts + 1 := by
  intro ts
  induction ts with
  | nil => simp
  | cons t₀ rest ih =>
    intro t ht
    rcases List.mem_cons.mp ht with h | h
    · subst h
      have := le_max_left t.id (maxId rest)
      simp only [maxId]
      exact lt_of_le_of_lt this (lt_add_one _)
    · have h1 := ih t h
      have h2 := le_max_right t₀.id (maxId rest)
      simp only [maxId]
      linarith

/-- Workhorse for the canonical branch: processing a list of pairwise distinct
day names, none of which is yet a bucket, when every day's bucket value is
iterable, succeeds and appends the days in order. -/
theorem loadCanonicalDays_spec (data : JValue) :
    ∀ (ds : List String) (tm : TaskManager), ds.Nodup →
    (∀ d ∈ ds, dget tm.daily_tasks d = none) →
    (∀ d ∈ ds, (canonItems data d).isSome) →
    (loadCanonicalDays data ds tm).2 = true ∧
    (loadCanonicalDays data ds tm).1.daily_tasks
      = tm.daily_tasks ++ ds.map (fun d => (d, canonTasks 0 ((canonItems data d).getD []))) ∧
    (∀ k, k ∉ ds → dget (loadCanonicalDays data ds tm).1.task_id k = dget tm.task_id k) ∧
    (∀ d ∈ ds, dget (loadCanonicalDays data ds tm).1.task_id d
       = some (((canonItems data d).getD []).length : Int)) := by
  intro ds
  induction ds with
  | nil => intro tm _ _ _; simp [loadCanonicalDays]
  | cons d ds ih =>
    intro tm hnd hfresh hit
    rcases Option.isSome_iff_exists.mp (hit d (by simp)) with ⟨items, hitems⟩
    have hfd : dget tm.daily_tasks d = none := hfresh d (by simp)
    have hnd' : ds.Nodup := (List.nodup_cons.mp hnd).2
    have hdd : d ∉ ds := (List.nodup_cons.mp hnd).1
    have step : loadCanonicalDays data (d :: ds) tm
        = loadCanonicalDays data ds
            { daily_tasks := tm.daily_tasks ++ [(d, canonTasks 0 items)],
              task_id := dset tm.task_id d (items.length : Int) } := by
      simp only [loadCanonicalDays, hitems]
      rw [dset_absent _ hfd, dset_append_fresh _ _ hfd]
    set tm' : TaskManager :=
      { daily_tasks := tm.daily_tasks ++ [(d, canonTasks 0 items)],
        task_id := dset tm.task_id d (items.length : Int) } with htm'
    have hfresh' : ∀ d' ∈ ds, dget tm'.daily_tasks d' = none := by
      intro d' hd'
      have hne : d ≠ d' := fun he => hdd (he ▸ hd')
      rw [htm']
      simp only [dget_append, hfresh d' (List.mem_cons_of_mem _ hd')]
      simp [dget, hne]
    have hit' : ∀ d' ∈ ds, (canonItems data d').isSome :=
      fun d' hd' => hit d' (List.mem_cons_of_mem _ hd')
    obtain ⟨ihs, ihd, ihk, ihc⟩ := ih tm' hnd' hfresh' hit'
    rw [step]
    refine ⟨ihs, ?_, ?_, ?_⟩
    · rw [ihd, htm']
      simp [hitems]
    · intro k hk
      have hkne : k ≠ d := fun he => hk (by simp [he])
      have hkds : k ∉ ds := fun hm => hk (List.mem_cons_of_mem _ hm)
      rw [ihk k hkds, htm']
      exact dget_dset_of_ne _ _ hkne
    · intro d' hd'
      rcases List.mem_cons.mp hd' with h | h
      · subst h
        rw [ihk d' hdd, htm', hitems]
        simp [dget_dset_self]
      · exact ihc d' h

/-- The canonical loop succeeds only when every day's bucket value was
iterable (or falsy). -/
theorem loadCanonicalDays_success (data : JValue) :
    ∀ (ds : List String) (tm : TaskManager),
    (loadCanonicalDays data ds tm).2 = true → ∀ d ∈ ds, (canonItems data d).isSome := by
  intro ds
  induction ds with
  | nil => simp
  | cons d ds ih =>
    intro tm hs d' hd'
    rcases hitems : canonItems data d with _ | items
    · simp [loadCanonicalDays, hitems] at hs
    · rcases List.mem_cons.mp hd' with h | h
      · simp [h, hitems]
      · simp only [loadCanonicalDays, hitems] at hs
        exact ih _ hs d' h

/-! Lemmas about the legacy branch. -/

theorem legacyBuckets_keys :
    ∀ {dkvs : List (String × JValue)} {bs : List (String × List Task)},
    legacyBuckets dkvs = some bs → bs.map Prod.fst = dkvs.map Prod.fst := by
  intro dkvs
  induction dkvs with
  | nil =>
    intro bs h
    simp [legacyBuckets] at h
    subst h
    simp
  | cons b rest ih =>
    intro bs h
    obtain ⟨d, v⟩ := b
    simp only [legacyBuckets, Option.bind_eq_bind, Option.bind_eq_some,
      Option.pure_def, Option.some.injEq] at h
    rcases h with ⟨ts, hts, rest', hrest', hbs⟩
    subst hbs
    simp [ih hrest']

theorem legacyBuckets_dget :
    ∀ {dkvs : List (String × JValue)} {bs : List (String × List Task)},
    legacyBuckets dkvs = some bs → ∀ k,
    (∀ v, dget dkvs k = some v → ∃ ts, legacyBucket v = some ts ∧ dget bs k = some ts)
    ∧ (dget dkvs k = none → dget bs k = none) := by
  intro dkvs
  induction dkvs with
  | nil =>
    intro bs h k
    simp [legacyBuckets] at h
    subst h
    simp [dget]
  | cons b rest ih =>
    intro bs h k
    obtain ⟨d, v₀⟩ := b
    simp only [legacyBuckets, Option.bind_eq_bind, Option.bind_eq_some,
      Option.pure_def, Option.some.injEq] at h
    rcases h with ⟨ts, hts, rest', hrest', hbs⟩
    subst hbs
    by_cases hd : d = k
    · subst hd
      constructor
      · intro v hv
        simp [dget] at hv
        subst hv
        exact ⟨ts, hts, by simp [dget]⟩
      · intro hv
        simp [dget] at hv
    · constructor
      · intro v hv
        simp [dget, hd] at hv
        rcases (ih hrest' k).1 v hv with ⟨ts', h1, h2⟩
        exact ⟨ts', h1, by simp [dget, hd, h2]⟩
      · intro hv
        simp [dget, hd] at hv
        simp [dget, hd, (ih hrest' k).2 hv]

theorem dsetdefault_nodup {α : Type} {m : List (String × α)} (k : String) (v : α)
    (h : (m.map Prod.fst).Nodup) : ((dsetdefault m k v).map Prod.fst).Nodup := by
  unfold dsetdefault
  rcases hk : dget m k with _ | w
  · have : k ∉ m.map Prod.fst := (dget_eq_none_iff m k).mp hk
    simp [List.nodup_append, h, this]
  · exact h

theorem foldl_dsetdefault_nodup {α : Type} (v : α) (ds : List String) :
    ∀ (m : List (String × α)), (m.map Prod.fst).Nodup →
    (((ds.foldl (fun m d => dsetdefault m d v) m)).map Prod.fst).Nodup := by
  induction ds with
  | nil => intro m h; simpa using h
  | cons d ds ih =>
    intro m h
    exact ih _ (dsetdefault_nodup d v h)

theorem mem_dsetdefault {α : Type} {m : List (String × α)} {k : String} {v : α}
    {b : String × α} (h : b ∈ dsetdefault m k v) : b ∈ m ∨ b.2 = v := by
  unfold dsetdefault at h
  rcases hk : dget m k with _ | w
  · rw [hk] at h
    rcases List.mem_append.mp h with h₂ | h₂
    · exact Or.inl h₂
    · simp at h₂
      exact Or.inr (by simp [h₂])
  · rw [hk] at h
    exact Or.inl h

theorem foldl_dsetdefault_mem {α : Type} (v : α) (ds : List String) :
    ∀ (m : List (String × α)) (b : String × α),
    b ∈ ds.foldl (fun m d => dsetdefault m d v) m → b ∈ m ∨ b.2 = v := by
  induction ds with
  | nil => intro m b h; exact Or.inl (by simpa using h)
  | cons d ds ih =>
    intro m b h
    rcases ih _ b h with h₁ | h₁
    · exact mem_dsetdefault h₁
    · exact Or.inr h₁

theorem dget_map_keyfun {α : Type} (g : String → α) (ds : List String) (k : String) :
    dget (ds.map fun d => (d, g d)) k = if k ∈ ds then some (g k) else none := by
  induction ds with
  | nil => simp [dget]
  | cons d ds ih =>
    by_cases h : d = k
    · subst h
      simp [dget]
    · simp [dget, h, ih, List.mem_cons, Ne.symm h]

/-- The canonical branch of the loader on a mapping without `daily_tasks`,
when every day's bucket value is iterable or falsy: it succeeds, the buckets
become exactly the eight days in order, and each counter becomes the number
of iterates. -/
theorem loadCanonical_spec (tm : TaskManager) (kvs : List (String × JValue))
    (hnl : dget kvs "daily_tasks" = none)
    (hit : ∀ d ∈ days, (canonItems (.obj kvs) d).isSome) :
    (load_data tm (.obj kvs)).2 = true ∧
    (load_data tm (.obj kvs)).1.daily_tasks
      = days.map (fun d => (d, canonTasks 0 ((canonItems (.obj kvs) d).getD []))) ∧
    ∀ d ∈ days, dget (load_data tm (.obj kvs)).1.task_id d
      = some ((((canonItems (.obj kvs) d).getD []).length : Int)) := by
  have hleg : isLegacyShape (.obj kvs) = false := by simp [isLegacyShape, hnl]
  have hld : load_data tm (.obj kvs) = loadCanonical tm (.obj kvs) := by
    simp [load_data, hleg]
  have hnd : days.Nodup := by decide
  have hfresh : ∀ d ∈ days,
      dget (({ tm with daily_tasks := [] } : TaskManager)).daily_tasks d = none := by
    intro d _
    simp [dget]
  obtain ⟨hs, hdt, _, hc⟩ :=
    loadCanonicalDays_spec (.obj kvs) days { tm with daily_tasks := [] } hnd hfresh hit
  rw [hld]
  exact ⟨hs, by simpa using hdt, hc⟩

/-- C9: for every session (whose task statuses are the strings produced by the
operations, `"Pending"` or `"Done"`), `to_dict` is a mapping whose keys are
the bucket names with the first letter capitalized, and whose values are, in
list order, arrays of objects carrying exactly the fields `task` (the name)
and `status` (`"Pending"` or `"Done"`); internal ids and per-bucket counters
do not occur in it. -/
theorem to_dict_canonical_shape (tm : TaskManager)
    (h : ∀ b ∈ tm.daily_tasks, ∀ t ∈ b.2,
      t.status = JValue.str "Pending" ∨ t.status = JValue.str "Done") :
    ∃ kvs, tm.to_dict = .obj kvs ∧
      List.Forall₂
        (fun (kv : String × JValue) (b : String × List Task) =>
          kv.1 = pyCapitalize b.1 ∧
          kv.2 = .arr (b.2.map fun t => .obj [("task", t.name), ("status", t.status)]) ∧
          ∀ t ∈ b.2, t.status = JValue.str "Pending" ∨ t.status = JValue.str "Done")
        kvs tm.daily_tasks := by
  refine ⟨_, rfl, ?_⟩
  rw [List.forall₂_map_left_iff]
  exact List.forall₂_same.mpr fun b hb => ⟨rfl, rfl, h b hb⟩

/-- Witness for `to_dict_canonical_shape` at a concrete session. -/
theorem to_dict_canonical_shape_witness :
    ∃ kvs, (TaskManager.init.add "Monday" "Task 1" .PENDING).1.to_dict = .obj kvs ∧
      List.Forall₂
        (fun (kv : String × JValue) (b : String × List Task) =>
          kv.1 = pyCapitalize b.1 ∧
          kv.2 = .arr (b.2.map fun t => .obj [("task", t.name), ("status", t.status)]) ∧
          ∀ t ∈ b.2, t.status = JValue.str "Pending" ∨ t.status = JValue.str "Done")
        kvs (TaskManager.init.add "Monday" "Task 1" .PENDING).1.daily_tasks :=
  to_dict_canonical_shape (TaskManager.init.add "Monday" "Task 1" .PENDING).1 (by decide)

/-- C10: after every successful load of a canonical-shape document (not a
mapping containing `daily_tasks`), the bucket map holds exactly the eight
canonical buckets in construction order; any other bucket name no longer has
a task list, so dynamically created buckets do not survive the reload. -/
theorem load_canonical_exactly_eight (tm : TaskManager) (data : JValue)
    (hnl : isLegacyShape data = false) (hs : (load_data tm data).2 = true) :
    ((load_data tm data).1).daily_tasks.map Prod.fst = days ∧
    ∀ k, k ∉ days → dget ((load_data tm data).1).daily_tasks k = none := by
  have hld : load_data tm data = loadCanonical tm data := by simp [load_data, hnl]
  rw [hld] at hs ⊢
  unfold loadCanonical at hs ⊢
  have hit := loadCanonicalDays_success data days _ hs
  have hnd : days.Nodup := by decide
  have hfresh : ∀ d ∈ days,
      dget (({ tm with daily_tasks := [] } : TaskManager)).daily_tasks d = none := by
    intro d _
    simp [dget]
  obtain ⟨_, hdt, _, _⟩ :=
    loadCanonicalDays_spec data days { tm with daily_tasks := [] } hnd hfresh hit
  constructor
  · rw [hdt]
    rfl
  · intro k hk
    rw [dget_eq_none_iff, hdt]
    simpa using hk

/-- Witness for `load_canonical_exactly_eight` at a concrete load. -/
theorem load_canonical_exactly_eight_witness :
    ((load_data TaskManager.init (.obj [])).1).daily_tasks.map Prod.fst = days ∧
    ∀ k, k ∉ days → dget ((load_data TaskManager.init (.obj [])).1).daily_tasks k = none :=
  load_canonical_exactly_eight TaskManager.init (.obj []) (by decide) (by decide)

/-- C5 (counterexample): loading the canonical document
`{"Monday": [{"task": "a"}]}` yields a task whose status is `null` (Python
`None`), not the claimed default `"Pending"`: a `status` field absent from an
object entry is not defaulted. -/
theorem load_missing_status_counterexample :
    (load_data TaskManager.init (.obj [("Monday", .arr [.obj [("task", .str "a")]])])).2
      = true ∧
    dget (load_data TaskManager.init
        (.obj [("Monday", .arr [.obj [("task", .str "a")]])])).1.daily_tasks "monday"
      = some [⟨0, .str "a", .null⟩] ∧
    JValue.null ≠ JValue.str "Pending" :=
  ⟨by decide, by decide, by decide⟩

/-- C5 (amended): when loading a canonical-shape document, an entry that is
not an object gets status `"Pending"`; an object entry's status is the value
of its `status` field when present, and `null` (Python `None`) — not
`"Pending"` — when the field is absent.  The statuses of a loaded bucket are
exactly the entry statuses so computed, in order. -/
theorem canon_status_amended :
    (∀ t : JValue, (∀ kvs, t ≠ .obj kvs) → canonEntryStatus t = .str "Pending") ∧
    (∀ kvs v, dget kvs "status" = some v → canonEntryStatus (.obj kvs) = v) ∧
    (∀ kvs, dget kvs "status" = none → canonEntryStatus (.obj kvs) = .null) ∧
    (∀ (tm : TaskManager) (kvs : List (String × JValue)),
      dget kvs "daily_tasks" = none →
      (∀ d ∈ days, (canonItems (.obj kvs) d).isSome) →
      ∀ d ∈ days, ∀ ts, dget (load_data tm (.obj kvs)).1.daily_tasks d = some ts →
        ts.map Task.status = ((canonItems (.obj kvs) d).getD []).map canonEntryStatus) := by
  refine ⟨?_, ?_, ?_, ?_⟩
  · intro t ht
    cases t with
    | obj kvs => exact absurd rfl (ht kvs)
    | _ => rfl
  · intro kvs v hv
    simp [canonEntryStatus, hv]
  · intro kvs hv
    simp [canonEntryStatus, hv]
  · intro tm kvs hnl hit d hd ts hts
    obtain ⟨_, hdt, _⟩ := loadCanonical_spec tm kvs hnl hit
    rw [hdt, dget_map_keyfun] at hts
    rw [if_pos hd] at hts
    cases hts
    exact canonTasks_map_status 0 _

/-- Witness for `canon_status_amended` at concrete inputs. -/
theorem canon_status_amended_witness :
    canonEntryStatus (.num 7) = .str "Pending" ∧
    canonEntryStatus (.obj [("status", .str "Done")]) = .str "Done" ∧
    canonEntryStatus (.obj [("task", .str "a")]) = .null :=
  ⟨canon_status_amended.1 (.num 7) (fun _ h => JValue.noConfusion h),
   canon_status_amended.2.1 [("status", .str "Done")] (.str "Done") (by decide),
   canon_status_amended.2.2.1 [("task", .str "a")] (by decide)⟩

/-- C2 (counterexample): a non-object array entry (`42`) is not skipped — it
becomes a task with empty name and status `"Pending"` — and a bucket value
that is a truthy non-iterable (`5`) does not degrade to an empty list: it
aborts the whole load, which returns `false`. -/
theorem load_malformed_counterexample :
    dget (load_data TaskManager.init (.obj [("Monday", .arr [.num 42])])).1.daily_tasks
        "monday"
      = some [⟨0, .str "", .str "Pending"⟩] ∧
    (load_data TaskManager.init (.obj [("Monday", .num 5)])).2 = false :=
  ⟨by decide, by decide⟩

/-- C2 (amended): a document that is not a mapping loads successfully with all
eight buckets empty; a falsy bucket value (null, false, 0, empty
string/array/object) contributes no entries; a non-object array entry is not
skipped but becomes a task with empty name and status `"Pending"`; and the
load succeeds — rather than aborting with a reported failure — exactly when
every day's bucket value is iterable or falsy. -/
theorem load_malformed_amended :
    (∀ (tm : TaskManager) (data : JValue), (∀ kvs, data ≠ .obj kvs) →
      (load_data tm data).2 = true ∧
      (load_data tm data).1.daily_tasks = days.map fun d => (d, [])) ∧
    (∀ (data : JValue) (d : String), truthy (canonTasksList data d) = false →
      canonItems data d = some []) ∧
    (∀ (i : Nat) (t : JValue) (rest : List JValue), (∀ kvs, t ≠ .obj kvs) →
      canonTasks i (t :: rest)
        = ⟨(i : Int), .str "", .str "Pending"⟩ :: canonTasks (i + 1) rest) ∧
    (∀ (tm : TaskManager) (data : JValue), isLegacyShape data = false →
      ((load_data tm data).2 = true ↔ ∀ d ∈ days, (canonItems data d).isSome)) := by
  have harr : ∀ (data : JValue), (∀ kvs, data ≠ .obj kvs) →
      ∀ d, canonTasksList data d = .arr [] := by
    intro data hno d
    cases data with
    | obj kvs => exact absurd rfl (hno kvs)
    | _ => rfl
  refine ⟨?_, ?_, ?_, ?_⟩
  · intro tm data hno
    have hleg : isLegacyShape data = false := by
      cases data with
      | obj kvs => exact absurd rfl (hno kvs)
      | _ => rfl
    have hld : load_data tm data = loadCanonical tm data := by simp [load_data, hleg]
    have hit : ∀ d ∈ days, (canonItems data d).isSome := by
      intro d _
      rw [canonItems_arr (harr data hno d)]
      rfl
    have hfresh : ∀ d ∈ days,
        dget (({ tm with daily_tasks := [] } : TaskManager)).daily_tasks d = none := by
      intro d _
      simp [dget]
    obtain ⟨hs, hdt, _, _⟩ :=
      loadCanonicalDays_spec data days { tm with daily_tasks := [] } (by decide) hfresh hit
    rw [hld]
    unfold loadCanonical
    refine ⟨hs, ?_⟩
    rw [hdt]
    have : ∀ d, canonItems data d = some [] := fun d => canonItems_arr (harr data hno d)
    simp [this, canonTasks]
  · intro data d h
    simp [canonItems, h]
  · intro i t rest hno
    have hname : canonEntryName t = .str "" := by
      cases t with
      | obj kvs => exact absurd rfl (hno kvs)
      | _ => rfl
    have hstat : canonEntryStatus t = .str "Pending" := by
      cases t with
      | obj kvs => exact absurd rfl (hno kvs)
      | _ => rfl
    simp [canonTasks, hname, hstat]
  · intro tm data hleg
    have hld : load_data tm data = loadCanonical tm data := by simp [load_data, hleg]
    rw [hld]
    unfold loadCanonical
    constructor
    · exact loadCanonicalDays_success data days _
    · intro hit
      have hfresh : ∀ d ∈ days,
          dget (({ tm with daily_tasks := [] } : TaskManager)).daily_tasks d = none := by
        intro d _
        simp [dget]
      exact (loadCanonicalDays_spec data days _ (by decide) hfresh hit).1

/-- Witness for `load_malformed_amended` at concrete inputs. -/
theorem load_malformed_amended_witness :
    (load_data TaskManager.init (.str "junk")).2 = true ∧
    (load_data TaskManager.init (.str "junk")).1.daily_tasks = days.map fun d => (d, []) :=
  load_malformed_amended.1 TaskManager.init (.str "junk") fun _ h => JValue.noConfusion h

/-- A concrete one-task session used by witnesses: `add("monday", "x")` on a
fresh session. -/
def sampleTM : TaskManager := (TaskManager.init.add "monday" "x" .PENDING).1

/-- C6: rename and setStatus with an unknown bucket or no matching id are
silent no-ops — state unchanged, no autosave; setStatus returns `true` iff a
matching task exists; and when a match exists only the first matching task is
updated. -/
theorem edit_silent_noop (tm : TaskManager) (day : String) (i : Int)
    (st : TaskStatus) (nm : String) :
    ((∀ ts, dget tm.daily_tasks (pyLower day) = some ts → ∀ t ∈ ts, t.id ≠ i) →
      tm.edit_task_status day i st = (tm, false, false) ∧
      tm.edit_task_name day i nm = (tm, false)) ∧
    ((tm.edit_task_status day i st).2.1 = true ↔
      ∃ ts, dget tm.daily_tasks (pyLower day) = some ts ∧ ∃ t ∈ ts, t.id = i) ∧
    (∀ ts pre t post, dget tm.daily_tasks (pyLower day) = some ts →
      ts = pre ++ t :: post → (∀ u ∈ pre, u.id ≠ i) → t.id = i →
      tm.edit_task_status day i st
        = ({ tm with daily_tasks := (dset tm.daily_tasks (pyLower day)
              (pre ++ { t with status := .str st.value } :: post)) }, true, true) ∧
      tm.edit_task_name day i nm
        = ({ tm with daily_tasks := (dset tm.daily_tasks (pyLower day)
              (pre ++ { t with name := .str nm } :: post)) }, true)) := by
  refine ⟨?_, ?_, ?_⟩
  · intro h
    rcases hb : dget tm.daily_tasks (pyLower day) with _ | ts
    · constructor
      · simp [TaskManager.edit_task_status, hb]
      · simp [TaskManager.edit_task_name, hb]
    · constructor
      · simp [TaskManager.edit_task_status, hb, editFirst_not_found _ i ts (h ts hb)]
      · simp [TaskManager.edit_task_name, hb, editFirst_not_found _ i ts (h ts hb)]
  · rcases hb : dget tm.daily_tasks (pyLower day) with _ | ts
    · simp [TaskManager.edit_task_status, hb]
    · have hkey : (tm.edit_task_status day i st).2.1
          = (editFirst (fun t => { t with status := JValue.str st.value }) i ts).2 := by
        by_cases hf :
          (editFirst (fun t => { t with status := JValue.str st.value }) i ts).2 = true
        · simp [TaskManager.edit_task_status, hb, hf]
        · simp [TaskManager.edit_task_status, hb, hf]
      rw [hkey, editFirst_snd_iff]
      simp [hb]
  · intro ts pre t post hget hsplit hpre ht
    subst hsplit
    have h1 := editFirst_found (fun u => { u with status := .str st.value }) i pre t post hpre ht
    have h2 := editFirst_found (fun u => { u with name := .str nm }) i pre t post hpre ht
    constructor
    · simp [TaskManager.edit_task_status, hget, h1]
    · simp [TaskManager.edit_task_name, hget, h2]

/-- Witness for `edit_silent_noop`: no-op on a fresh session with no match. -/
theorem edit_silent_noop_witness :
    TaskManager.init.edit_task_status "monday" 0 .DONE = (TaskManager.init, false, false) ∧
    TaskManager.init.edit_task_name "monday" 0 "z" = (TaskManager.init, false) := by
  refine (edit_silent_noop TaskManager.init "monday" 0 .DONE "z").1 ?_
  intro ts hts
  rw [show dget TaskManager.init.daily_tasks (pyLower "monday") = some [] from by decide]
    at hts
  cases hts
  intro t ht
  simp at ht

/-- C8: when rename finds a match, only the name of the first matching task
changes: its id and status are kept, every other task and bucket is
untouched, and no counter changes. -/
theorem rename_frame (tm : TaskManager) (day : String) (i : Int) (nm : String)
    (ts pre : List Task) (t : Task) (post : List Task)
    (hget : dget tm.daily_tasks (pyLower day) = some ts)
    (hsplit : ts = pre ++ t :: post) (hpre : ∀ u ∈ pre, u.id ≠ i) (ht : t.id = i) :
    (tm.edit_task_name day i nm).1.daily_tasks
      = dset tm.daily_tasks (pyLower day) (pre ++ { t with name := .str nm } :: post) ∧
    ({ t with name := JValue.str nm }).id = t.id ∧
    ({ t with name := JValue.str nm }).status = t.status ∧
    (∀ k, k ≠ pyLower day →
      dget (tm.edit_task_name day i nm).1.daily_tasks k = dget tm.daily_tasks k) ∧
    (tm.edit_task_name day i nm).1.task_id = tm.task_id := by
  subst hsplit
  have h2 := editFirst_found (fun u => { u with name := .str nm }) i pre t post hpre ht
  have hmain : tm.edit_task_name day i nm
      = ({ tm with daily_tasks := (dset tm.daily_tasks (pyLower day)
            (pre ++ { t with name := .str nm } :: post)) }, true) := by
    simp [TaskManager.edit_task_name, hget, h2]
  rw [hmain]
  refine ⟨rfl, rfl, rfl, ?_, rfl⟩
  intro k hk
  exact dget_dset_of_ne _ _ hk

/-- Witness for `rename_frame` on the sample session. -/
theorem rename_frame_witness :
    (sampleTM.edit_task_name "monday" 0 "y").1.daily_tasks
      = dset sampleTM.daily_tasks (pyLower "monday")
          ([] ++ { (⟨0, .str "x", .str "Pending"⟩ : Task) with name := .str "y" } :: []) ∧
    ({ (⟨0, .str "x", .str "Pending"⟩ : Task) with name := JValue.str "y" }).id
      = (⟨0, .str "x", .str "Pending"⟩ : Task).id ∧
    ({ (⟨0, .str "x", .str "Pending"⟩ : Task) with name := JValue.str "y" }).status
      = (⟨0, .str "x", .str "Pending"⟩ : Task).status ∧
    (∀ k, k ≠ pyLower "monday" →
      dget (sampleTM.edit_task_name "monday" 0 "y").1.daily_tasks k
        = dget sampleTM.daily_tasks k) ∧
    (sampleTM.edit_task_name "monday" 0 "y").1.task_id = sampleTM.task_id :=
  rename_frame sampleTM "monday" 0 "y" [⟨0, .str "x", .str "Pending"⟩] []
    ⟨0, .str "x", .str "Pending"⟩ [] (by decide) rfl (by simp) (by decide)

theorem canonTasks_get (xs : List JValue) :
    ∀ (i j : Nat) (hj : j < (canonTasks i xs).length) (hx : j < xs.length),
    (canonTasks i xs).get ⟨j, hj⟩
      = ⟨((i + j : Nat) : Int), canonEntryName (xs.get ⟨j, hx⟩),
         canonEntryStatus (xs.get ⟨j, hx⟩)⟩ := by
  induction xs with
  | nil =>
    intro i j hj hx
    simp at hx
  | cons x rest ih =>
    intro i j hj hx
    cases j with
    | zero => simp [canonTasks]
    | succ j =>
      have hj' : j < (canonTasks (i + 1) rest).length := by
        simpa [canonTasks] using hj
      have hx' : j < rest.length := by simpa using hx
      have := ih (i + 1) j hj' hx'
      simp only [canonTasks, List.get_cons_succ]
      rw [this]
      congr 1
      omega

/-- C3: loading a well-formed canonical document (a mapping without
`daily_tasks` whose present bucket values are arrays) succeeds and populates
all eight buckets — absent buckets become empty — assigning ids sequentially
from 0 in array order, reading each entry's name from `task` with fallback
`name`, and setting every bucket's next-id counter to the number of loaded
tasks. -/
theorem load_canonical_wellformed (tm : TaskManager) (kvs : List (String × JValue))
    (hnl : dget kvs "daily_tasks" = none)
    (harr : ∀ d ∈ days, ∃ xs, canonTasksList (.obj kvs) d = .arr xs) :
    (load_data tm (.obj kvs)).2 = true ∧
    (load_data tm (.obj kvs)).1.daily_tasks.map Prod.fst = days ∧
    (∀ d ∈ days, ∀ xs, canonTasksList (.obj kvs) d = .arr xs →
      dget (load_data tm (.obj kvs)).1.daily_tasks d = some (canonTasks 0 xs) ∧
      (canonTasks 0 xs).length = xs.length ∧
      (∀ (j : Nat) (hj : j < (canonTasks 0 xs).length) (hx : j < xs.length),
        ((canonTasks 0 xs).get ⟨j, hj⟩).id = (j : Int) ∧
        ((canonTasks 0 xs).get ⟨j, hj⟩).name = canonEntryName (xs.get ⟨j, hx⟩) ∧
        ((canonTasks 0 xs).get ⟨j, hj⟩).status = canonEntryStatus (xs.get ⟨j, hx⟩)) ∧
      dget (load_data tm (.obj kvs)).1.task_id d = some ((xs.length : Int))) ∧
    (∀ (ekvs : List (String × JValue)) (v : JValue),
      dget ekvs "task" = some v → v ≠ .null → canonEntryName (.obj ekvs) = v) ∧
    (∀ ekvs : List (String × JValue), dget ekvs "task" = none →
      canonEntryName (.obj ekvs) = (dget ekvs "name").getD .null) := by
  have hit : ∀ d ∈ days, (canonItems (.obj kvs) d).isSome := by
    intro d hd
    obtain ⟨xs, hxs⟩ := harr d hd
    rw [canonItems_arr hxs]
    rfl
  obtain ⟨hs, hdt, hc⟩ := loadCanonical_spec tm kvs hnl hit
  refine ⟨hs, ?_, ?_, ?_, ?_⟩
  · rw [hdt]
    rfl
  · intro d hd xs hxs
    have hi : canonItems (.obj kvs) d = some xs := canonItems_arr hxs
    refine ⟨?_, canonTasks_length 0 xs, ?_, ?_⟩
    · rw [hdt, dget_map_keyfun, if_pos hd, hi]
      rfl
    · intro j hj hx
      rw [canonTasks_get xs 0 j hj hx]
      exact ⟨by simp, rfl, rfl⟩
    · have := hc d hd
      rw [hi] at this
      simpa using this
  · intro ekvs v hv hvn
    cases v with
    | null => exact absurd rfl hvn
    | _ => simp [canonEntryName, hv]
  · intro ekvs h
    simp [canonEntryName, h]

/-- The spec's example canonical document. -/
def canonExampleDoc : JValue :=
  .obj [("Monday", .arr [.obj [("task", .str "First Task"), ("status", .str "Done")]]),
        ("Friday", .arr [.obj [("task", .str "Task 2"), ("status", .str "Pending")]])]

/-- Witness for `load_canonical_wellformed` at the spec's example document. -/
theorem load_canonical_wellformed_witness :
    (load_data TaskManager.init canonExampleDoc).2 = true ∧
    (load_data TaskManager.init canonExampleDoc).1.daily_tasks.map Prod.fst = days ∧
    (∀ d ∈ days, ∀ xs, canonTasksList canonExampleDoc d = .arr xs →
      dget (load_data TaskManager.init canonExampleDoc).1.daily_tasks d
        = some (canonTasks 0 xs) ∧
      (canonTasks 0 xs).length = xs.length ∧
      (∀ (j : Nat) (hj : j < (canonTasks 0 xs).length) (hx : j < xs.length),
        ((canonTasks 0 xs).get ⟨j, hj⟩).id = (j : Int) ∧
        ((canonTasks 0 xs).get ⟨j, hj⟩).name = canonEntryName (xs.get ⟨j, hx⟩) ∧
        ((canonTasks 0 xs).get ⟨j, hj⟩).status = canonEntryStatus (xs.get ⟨j, hx⟩)) ∧
      dget (load_data TaskManager.init canonExampleDoc).1.task_id d
        = some ((xs.length : Int))) ∧
    (∀ (ekvs : List (String × JValue)) (v : JValue),
      dget ekvs "task" = some v → v ≠ .null → canonEntryName (.obj ekvs) = v) ∧
    (∀ ekvs : List (String × JValue), dget ekvs "task" = none →
      canonEntryName (.obj ekvs) = (dget ekvs "name").getD .null) :=
  load_canonical_wellformed TaskManager.init
    [("Monday", .arr [.obj [("task", .str "First Task"), ("status", .str "Done")]]),
     ("Friday", .arr [.obj [("task", .str "Task 2"), ("status", .str "Pending")]])]
    (by decide)
    (by
      intro d hd
      fin_cases hd <;> exact ⟨_, rfl⟩)

/-- C4: loading a well-formed legacy document (a mapping whose `daily_tasks`
value is a mapping): each task's id comes from the source `id` field
(defaulting to its 0-based position when absent, `""` for a missing name,
`"Pending"` for a missing status); converted buckets are kept and the eight
canonical buckets missing from the document are created empty; every
bucket's next-id counter becomes (max id in the bucket) + 1, or 0 when the
bucket is empty; and a top-level `task_id` field is ignored. -/
theorem load_legacy_wellformed (tm : TaskManager) (kvs dkvs : List (String × JValue))
    (hdt : dget kvs "daily_tasks" = some (.obj dkvs))
    (hnd : (dkvs.map Prod.fst).Nodup) :
    (∀ (i : Nat) (ekvs : List (String × JValue)) (n : Int),
      dget ekvs "id" = some (.num n) →
      legacyTask i (.obj ekvs)
        = some ⟨n, (dget ekvs "name").getD (.str ""),
                (dget ekvs "status").getD (.str "Pending")⟩) ∧
    (∀ (i : Nat) (ekvs : List (String × JValue)),
      dget ekvs "id" = none →
      legacyTask i (.obj ekvs)
        = some ⟨(i : Int), (dget ekvs "name").getD (.str ""),
                (dget ekvs "status").getD (.str "Pending")⟩) ∧
    (∀ bs, legacyBuckets dkvs = some bs →
      (load_data tm (.obj kvs)).2 = true ∧
      (∀ d ts, dget bs d = some ts →
        dget (load_data tm (.obj kvs)).1.daily_tasks d = some ts) ∧
      (∀ d ∈ days, dget bs d = none →
        dget (load_data tm (.obj kvs)).1.daily_tasks d = some []) ∧
      (∀ b ∈ (load_data tm (.obj kvs)).1.daily_tasks,
        dget (load_data tm (.obj kvs)).1.task_id b.1 = some (maxId b.2 + 1) ∧
        (b.2 = [] → dget (load_data tm (.obj kvs)).1.task_id b.1 = some 0)) ∧
      (∀ d xs, (d, .arr xs) ∈ dkvs →
        ∃ ts, legacyTasks 0 xs = some ts ∧
          dget (load_data tm (.obj kvs)).1.daily_tasks d = some ts)) ∧
    (∀ v : JValue,
      load_data tm (.obj (("task_id", v) :: kvs)) = load_data tm (.obj kvs)) := by
  have hld : load_data tm (.obj kvs) = loadLegacy tm (.obj kvs) := by
    simp [load_data, isLegacyShape, hdt]
  refine ⟨?_, ?_, ?_, ?_⟩
  · intro i ekvs n h
    simp [legacyTask, h, pyInt]
  · intro i ekvs h
    simp [legacyTask, h]
  · intro bs hbs
    have hres : load_data tm (.obj kvs)
        = ({ daily_tasks := days.foldl (fun m d => dsetdefault m d []) bs,
             task_id := (days.foldl (fun m d => dsetdefault m d []) bs).map
               fun b => (b.1, maxId b.2 + 1) }, true) := by
      rw [hld]
      simp [loadLegacy, hdt, hbs]
    have hkeysbs : bs.map Prod.fst = dkvs.map Prod.fst := legacyBuckets_keys hbs
    have hndbs : (bs.map Prod.fst).Nodup := hkeysbs ▸ hnd
    have hnddt : (((days.foldl (fun m d => dsetdefault m d []) bs)).map Prod.fst).Nodup :=
      foldl_dsetdefault_nodup _ days bs hndbs
    refine ⟨by rw [hres], ?_, ?_, ?_, ?_⟩
    · intro d ts hts
      rw [hres]
      simp only
      rw [foldl_dsetdefault_dget, hts]
    · intro d hd hnone
      rw [hres]
      simp only
      rw [foldl_dsetdefault_dget, hnone, if_pos hd]
    · intro b hb
      rw [hres] at hb ⊢
      simp only at hb ⊢
      have hmem := nodup_dget_mem hnddt hb
      rw [dget_map_val (fun ts => maxId ts + 1)]
      rw [hmem]
      refine ⟨rfl, ?_⟩
      intro hempty
      rw [hempty]
      simp [maxId]
    · intro d xs hmem
      have hdk : dget dkvs d = some (.arr xs) := nodup_dget_mem hnd hmem
      obtain ⟨ts, hlb, hbsd⟩ := (legacyBuckets_dget hbs d).1 _ hdk
      have hlt : legacyTasks 0 xs = some ts := by
        simpa [legacyBucket, pyIterate] using hlb
      refine ⟨ts, hlt, ?_⟩
      rw [hres]
      simp only
      rw [foldl_dsetdefault_dget, hbsd]
  · intro v
    have hd2 : dget (("task_id", v) :: kvs) "daily_tasks" = some (.obj dkvs) := by
      simp [dget, hdt]
    simp [load_data, isLegacyShape, hdt, hd2, loadLegacy]

/-- The buckets mapping of the spec's example legacy document. -/
def legacyExampleInner : List (String × JValue) :=
  [("monday", .arr [.obj [("id", .num 5), ("name", .str "X"), ("status", .str "Pending")]])]

/-- The spec's example legacy document, as a key-value list. -/
def legacyExampleKvs : List (String × JValue) :=
  [("daily_tasks", .obj legacyExampleInner)]

/-- Witness for `load_legacy_wellformed` at the spec's example legacy document. -/
theorem load_legacy_wellformed_witness :
    (∀ (i : Nat) (ekvs : List (String × JValue)) (n : Int),
      dget ekvs "id" = some (.num n) →
      legacyTask i (.obj ekvs)
        = some ⟨n, (dget ekvs "name").getD (.str ""),
                (dget ekvs "status").getD (.str "Pending")⟩) ∧
    (∀ (i : Nat) (ekvs : List (String × JValue)),
      dget ekvs "id" = none →
      legacyTask i (.obj ekvs)
        = some ⟨(i : Int), (dget ekvs "name").getD (.str ""),
                (dget ekvs "status").getD (.str "Pending")⟩) ∧
    (∀ bs, legacyBuckets legacyExampleInner = some bs →
      (load_data TaskManager.init (.obj legacyExampleKvs)).2 = true ∧
      (∀ d ts, dget bs d = some ts →
        dget (load_data TaskManager.init (.obj legacyExampleKvs)).1.daily_tasks d
          = some ts) ∧
      (∀ d ∈ days, dget bs d = none →
        dget (load_data TaskManager.init (.obj legacyExampleKvs)).1.daily_tasks d
          = some []) ∧
      (∀ b ∈ (load_data TaskManager.init (.obj legacyExampleKvs)).1.daily_tasks,
        dget (load_data TaskManager.init (.obj legacyExampleKvs)).1.task_id b.1
          = some (maxId b.2 + 1) ∧
        (b.2 = [] →
          dget (load_data TaskManager.init (.obj legacyExampleKvs)).1.task_id b.1
            = some 0)) ∧
      (∀ d xs, (d, .arr xs) ∈ legacyExampleInner →
        ∃ ts, legacyTasks 0 xs = some ts ∧
          dget (load_data TaskManager.init (.obj legacyExampleKvs)).1.daily_tasks d
            = some ts)) ∧
    (∀ v : JValue,
      load_data TaskManager.init (.obj (("task_id", v) :: legacyExampleKvs))
        = load_data TaskManager.init (.obj legacyExampleKvs)) :=
  load_legacy_wellformed TaskManager.init legacyExampleKvs legacyExampleInner
    (by decide) (by decide)

/-- Unfolding of `add` when the normalized bucket already exists and has a
counter. -/
theorem add_present (tm : TaskManager) (day name : String) (st : TaskStatus)
    (ts : List Task) (hts : dget tm.daily_tasks (normalizeDay day) = some ts)
    (c : Int) (hc : dget tm.task_id (normalizeDay day) = some c) :
    tm.add day name st
      = ({ daily_tasks := (dset tm.daily_tasks (normalizeDay day)
            (ts ++ [⟨c, .str name, .str st.value⟩])),
           task_id := dset tm.task_id (normalizeDay day) (c + 1) },
         ⟨c, .str name, .str st.value⟩) := by
  simp [TaskManager.add, hts, hc]

/-- Unfolding of `add` when the normalized bucket does not exist: it is
created, and the counter comes from `setdefault` (an existing stale counter
is kept, otherwise 0). -/
theorem add_absent (tm : TaskManager) (day name : String) (st : TaskStatus)
    (hts : dget tm.daily_tasks (normalizeDay day) = none) :
    tm.add day name st
      = ({ daily_tasks := (tm.daily_tasks ++
            [(normalizeDay day,
              [⟨(dget tm.task_id (normalizeDay day)).getD 0, .str name, .str st.value⟩])]),
           task_id := (dset (dsetdefault tm.task_id (normalizeDay day) 0)
             (normalizeDay day) ((dget tm.task_id (normalizeDay day)).getD 0 + 1)) },
         ⟨(dget tm.task_id (normalizeDay day)).getD 0, .str name, .str st.value⟩) := by
  have h1 : dget (tm.daily_tasks ++ [(normalizeDay day, ([] : List Task))])
      (normalizeDay day) = some [] := by
    rw [dget_append, hts]
    simp [dget]
  have h2 : dget (dsetdefault tm.task_id (normalizeDay day) 0) (normalizeDay day)
      = some ((dget tm.task_id (normalizeDay day)).getD 0) := by
    rw [dget_dsetdefault]
    simp
  simp only [TaskManager.add, hts, Option.isSome_none, Bool.false_eq_true, if_false,
    h1, h2, Option.getD_some]
  rw [dset_append_fresh _ _ hts]
  simp

/-- Replacing a bucket's list by one with the same ids preserves the
invariant. -/
theorem inv_dset_edit (tm : TaskManager) (key : String) (ts newts : List Task)
    (hget : dget tm.daily_tasks key = some ts)
    (hids : newts.map Task.id = ts.map Task.id) (hinv : Inv tm) :
    Inv { tm with daily_tasks := dset tm.daily_tasks key newts } := by
  intro b hb
  simp only at hb
  rcases mem_dset hb with hbe | hbm
  · subst hbe
    obtain ⟨c, hc, hlt⟩ := hinv (key, ts) (dget_mem hget)
    refine ⟨c, hc, ?_⟩
    intro t htm
    have hmm : t.id ∈ newts.map Task.id := List.mem_map.mpr ⟨t, htm, rfl⟩
    rw [hids] at hmm
    rcases List.mem_map.mp hmm with ⟨u, hu, hid⟩
    exact hid ▸ hlt u hu
  · exact hinv b hbm

/-- C7: the session invariant — every bucket's next-id counter is at least
the greatest id in the bucket plus one — holds after construction, is
preserved by add, rename and setStatus, and is re-established by every
successful load (of a document whose `daily_tasks` mapping, when present, has
distinct keys, as every parsed JSON object does).  Moreover `add` assigns an
id strictly greater than every id already in its bucket, so ids within a
bucket are strictly increasing and never reused. -/
theorem session_invariant :
    Inv TaskManager.init ∧
    (∀ (tm : TaskManager) (day name : String) (st : TaskStatus), Inv tm →
      Inv (tm.add day name st).1 ∧
      ∀ ts, dget tm.daily_tasks (normalizeDay day) = some ts →
        ∀ t ∈ ts, t.id < (tm.add day name st).2.id) ∧
    (∀ (tm : TaskManager) (day : String) (i : Int) (nm : String), Inv tm →
      Inv (tm.edit_task_name day i nm).1) ∧
    (∀ (tm : TaskManager) (day : String) (i : Int) (st : TaskStatus), Inv tm →
      Inv (tm.edit_task_status day i st).1) ∧
    (∀ (tm : TaskManager) (data : JValue),
      (∀ kvs dkvs, data = .obj kvs → dget kvs "daily_tasks" = some (.obj dkvs) →
        (dkvs.map Prod.fst).Nodup) →
      (load_data tm data).2 = true → Inv (load_data tm data).1) := by
  refine ⟨?_, ?_, ?_, ?_, ?_⟩
  · -- construction
    intro b hb
    simp only [TaskManager.init] at hb
    rcases List.mem_map.mp hb with ⟨d, hd, rfl⟩
    refine ⟨0, ?_, by simp⟩
    show dget (days.map fun d => (d, 0)) d = some 0
    rw [dget_map_keyfun, if_pos hd]
  · -- add
    intro tm day name st hinv
    rcases hts : dget tm.daily_tasks (normalizeDay day) with _ | ts
    · -- unknown bucket: created with the setdefault counter
      rw [add_absent tm day name st hts]
      constructor
      · intro b hb
        simp only at hb
        rcases List.mem_append.mp hb with hbm | hbe
        · obtain ⟨c, hc, hlt⟩ := hinv b hbm
          have hbkey : b.1 ≠ normalizeDay day := by
            intro he
            have h0 : dget tm.daily_tasks b.1 = none := he ▸ hts
            rw [dget_eq_none_iff] at h0
            exact h0 (List.mem_map.mpr ⟨b, hbm, rfl⟩)
          refine ⟨c, ?_, hlt⟩
          simp only
          rw [dget_dset_of_ne _ _ hbkey, dget_dsetdefault, if_neg hbkey]
          exact hc
        · simp only [List.mem_singleton] at hbe
          subst hbe
          refine ⟨(dget tm.task_id (normalizeDay day)).getD 0 + 1, ?_, ?_⟩
          · simp only
            rw [dget_dset_self]
          · intro t htm
            simp only [List.mem_singleton] at htm
            subst htm
            exact lt_add_one _
      · intro ts' hts'
        exact Option.noConfusion hts'
    · -- known bucket
      obtain ⟨c, hc, hlt⟩ := hinv (normalizeDay day, ts) (dget_mem hts)
      rw [add_present tm day name st ts hts c hc]
      constructor
      · intro b hb
        simp only at hb
        rcases mem_dset hb with hbe | hbm
        · subst hbe
          refine ⟨c + 1, ?_, ?_⟩
          · simp only
            rw [dget_dset_self]
          · intro t htm
            rcases List.mem_append.mp htm with h | h
            · exact lt_trans (hlt t h) (lt_add_one c)
            · simp only [List.mem_singleton] at h
              subst h
              exact lt_add_one c
        · obtain ⟨c', hc', hlt'⟩ := hinv b hbm
          by_cases hbk : b.1 = normalizeDay day
          · refine ⟨c + 1, ?_, ?_⟩
            · simp only
              rw [hbk, dget_dset_self]
            · intro t htm
              have hcc : c' = c := by
                rw [hbk] at hc'
                rw [hc'] at hc
                exact Option.some.inj hc
              exact lt_trans (hcc ▸ hlt' t htm) (lt_add_one c)
          · refine ⟨c', ?_, hlt'⟩
            simp only
            rw [dget_dset_of_ne _ _ hbk]
            exact hc'
      · intro ts' hts' t htm
        cases hts'
        exact hlt t htm
  · -- rename
    intro tm day i nm hinv
    rcases hb : dget tm.daily_tasks (pyLower day) with _ | ts
    · simpa [TaskManager.edit_task_name, hb] using hinv
    · by_cases hf : (editFirst (fun u => { u with name := JValue.str nm }) i ts).2 = true
      · have hstep : tm.edit_task_name day i nm
            = ({ tm with daily_tasks := (dset tm.daily_tasks (pyLower day)
                  (editFirst (fun u => { u with name := JValue.str nm }) i ts).1) }, true) := by
          simp [TaskManager.edit_task_name, hb, hf]
        rw [hstep]
        exact inv_dset_edit tm (pyLower day) ts _ hb
          (editFirst_map_id (fun u => { u with name := JValue.str nm })
            (fun t => rfl) i ts) hinv
      · simpa [TaskManager.edit_task_name, hb, hf] using hinv
  · -- setStatus
    intro tm day i st hinv
    rcases hb : dget tm.daily_tasks (pyLower day) with _ | ts
    · simpa [TaskManager.edit_task_status, hb] using hinv
    · by_cases hf :
        (editFirst (fun u => { u with status := JValue.str st.value }) i ts).2 = true
      · have hstep : tm.edit_task_status day i st
            = ({ tm with daily_tasks := (dset tm.daily_tasks (pyLower day)
                  (editFirst (fun u => { u with status := JValue.str st.value }) i ts).1) },
               true, true) := by
          simp [TaskManager.edit_task_status, hb, hf]
        rw [hstep]
        exact inv_dset_edit tm (pyLower day) ts _ hb
          (editFirst_map_id (fun u => { u with status := JValue.str st.value })
            (fun t => rfl) i ts) hinv
      · simpa [TaskManager.edit_task_status, hb, hf] using hinv
  · -- load
    intro tm data hnodup hs
    by_cases hleg : isLegacyShape data = true
    · rcases data with _ | b | n | s | xs | kvs
      · simp [isLegacyShape] at hleg
      · simp [isLegacyShape] at hleg
      · simp [isLegacyShape] at hleg
      · simp [isLegacyShape] at hleg
      · simp [isLegacyShape] at hleg
      · rcases hdv : dget kvs "daily_tasks" with _ | v
        · simp [isLegacyShape, hdv] at hleg
        · rcases v with _ | b | n | s | xs | dkvs
          · have hfail : load_data tm (.obj kvs) = (tm, false) := by
              simp [load_data, isLegacyShape, hdv, loadLegacy]
            rw [hfail] at hs
            cases hs
          · have hfail : load_data tm (.obj kvs) = (tm, false) := by
              simp [load_data, isLegacyShape, hdv, loadLegacy]
            rw [hfail] at hs
            cases hs
          · have hfail : load_data tm (.obj kvs) = (tm, false) := by
              simp [load_data, isLegacyShape, hdv, loadLegacy]
            rw [hfail] at hs
            cases hs
          · have hfail : load_data tm (.obj kvs) = (tm, false) := by
              simp [load_data, isLegacyShape, hdv, loadLegacy]
            rw [hfail] at hs
            cases hs
          · have hfail : load_data tm (.obj kvs) = (tm, false) := by
              simp [load_data, isLegacyShape, hdv, loadLegacy]
            rw [hfail] at hs
            cases hs
          · have hnd := hnodup kvs dkvs rfl hdv
            rcases hbs : legacyBuckets dkvs with _ | bs
            · have hfail : load_data tm (.obj kvs) = (tm, false) := by
                simp [load_data, isLegacyShape, hdv, loadLegacy, hbs]
              rw [hfail] at hs
              cases hs
            · have hres : load_data tm (.obj kvs)
                  = ({ daily_tasks := days.foldl (fun m d => dsetdefault m d []) bs,
                       task_id := (days.foldl (fun m d => dsetdefault m d []) bs).map
                         fun b => (b.1, maxId b.2 + 1) }, true) := by
                simp [load_data, isLegacyShape, hdv, loadLegacy, hbs]
              rw [hres]
              intro b hb
              simp only at hb ⊢
              have hndbs : (bs.map Prod.fst).Nodup := (legacyBuckets_keys hbs) ▸ hnd
              have hnddt := foldl_dsetdefault_nodup ([] : List Task) days bs hndbs
              have hmem := nodup_dget_mem hnddt hb
              refine ⟨maxId b.2 + 1, ?_, lt_maxId_succ b.2⟩
              rw [dget_map_val (fun ts => maxId ts + 1), hmem]
              rfl
    · have hleg' : isLegacyShape data = false := by simpa using hleg
      have hld : load_data tm data = loadCanonical tm data := by simp [load_data, hleg']
      rw [hld] at hs ⊢
      unfold loadCanonical at hs ⊢
      have hit := loadCanonicalDays_success data days _ hs
      obtain ⟨_, hdt, _, hc⟩ := loadCanonicalDays_spec data days
        { tm with daily_tasks := [] } (by decide) (fun d _ => by simp [dget]) hit
      intro b hb
      rw [hdt] at hb
      simp only [List.nil_append] at hb
      rcases List.mem_map.mp hb with ⟨d, hd, rfl⟩
      refine ⟨(((canonItems data d).getD []).length : Int), hc d hd, ?_⟩
      intro t htm
      have := canonTasks_mem_id_lt ((canonItems data d).getD []) 0 t htm
      simpa using this

/-- Witness for `session_invariant`: the invariant after a concrete `add`,
with the invariant hypothesis discharged by the theorem's own base case. -/
theorem session_invariant_witness :
    Inv (TaskManager.init.add "monday" "a" .PENDING).1 :=
  (session_invariant.2.1 TaskManager.init "monday" "a" .PENDING session_invariant.1).1

/-! Helper lemmas for the round-trip theorem. -/

theorem dget_filter_ne {α : Type} (m : List (String × α)) (d k : String) (h : k ≠ d) :
    dget (m.filter fun b => b.1 != d) k = dget m k := by
  induction m with
  | nil => rfl
  | cons b rest ih =>
    obtain ⟨k₀, v₀⟩ := b
    by_cases h₀ : k₀ = d
    · subst h₀
      simp [List.filter_cons, dget, Ne.symm h, ih]
    · simp [List.filter_cons, bne_iff_ne, h₀, dget, ih]

theorem dget_split {α : Type} {m : List (String × α)} {d : String} {v : α}
    (h : dget m d = some v) :
    ∃ m1 m2, m = m1 ++ (d, v) :: m2 ∧ ∀ b ∈ m1, b.1 ≠ d := by
  induction m with
  | nil => simp [dget] at h
  | cons b rest ih =>
    obtain ⟨k₀, v₀⟩ := b
    by_cases h₀ : k₀ = d
    · subst h₀
      simp [dget] at h
      subst h
      exact ⟨[], rest, rfl, by simp⟩
    · simp [dget, h₀] at h
      obtain ⟨m1, m2, heq, hne⟩ := ih h
      refine ⟨(k₀, v₀) :: m1, m2, by simp [heq], ?_⟩
      intro b hb
      rcases List.mem_cons.mp hb with rfl | hb'
      · exact h₀
      · exact hne b hb'

theorem dget_map_capkey {α β : Type} (g : α → β) (m : List (String × α)) (k : String)
    (hinj : ∀ b ∈ m, pyCapitalize b.1 = pyCapitalize k → b.1 = k) :
    dget (m.map fun b => (pyCapitalize b.1, g b.2)) (pyCapitalize k)
      = (dget m k).map g := by
  induction m with
  | nil => simp [dget]
  | cons b rest ih =>
    obtain ⟨k₀, v₀⟩ := b
    by_cases h₀ : k₀ = k
    · subst h₀
      simp [dget]
    · have hcap : pyCapitalize k₀ ≠ pyCapitalize k := by
        intro he
        exact h₀ (hinj (k₀, v₀) (by simp) he)
      simp [dget, h₀, hcap, ih fun b hb he => hinj b (List.mem_cons_of_mem _ hb) he]

theorem canonTasks_entries (ts : List Task) : ∀ (i : Nat),
    (canonTasks i (ts.map fun t => JValue.obj [("task", t.name), ("status", t.status)])).map
        (fun u => (u.name, u.status))
      = ts.map fun t => (t.name, t.status) := by
  induction ts with
  | nil => intro i; rfl
  | cons t rest ih =>
    intro i
    simp [canonTasks, canonEntryName_entry, canonEntryStatus_entry, ih (i + 1)]

theorem bucketsTriples_flatten (l : List (String × List Task)) :
    bucketsTriples l
      = (l.map fun b => b.2.map fun t => (b.1, t.name, t.status)).flatten := by
  induction l with
  | nil => rfl
  | cons b rest ih => simp [bucketsTriples, ih]

/-- Reading buckets back in a fixed key order permutes the concatenation of
the per-bucket lists, for any store whose keys are distinct and all lie in
that order. -/
theorem perm_buckets {β : Type} (h : String → List Task → List β)
    (hemp : ∀ d, h d [] = []) :
    ∀ (ds : List String) (m : List (String × List Task)),
    ds.Nodup → (m.map Prod.fst).Nodup → (∀ b ∈ m, b.1 ∈ ds) →
    ((ds.map fun d => h d ((dget m d).getD [])).flatten).Perm
      ((m.map fun b => h b.1 b.2).flatten) := by
  intro ds
  induction ds with
  | nil =>
    intro m _ _ hsub
    have hm : m = [] := by
      cases m with
      | nil => rfl
      | cons b rest => exact absurd (hsub b (by simp)) (by simp)
    subst hm
    simp
  | cons d ds ih =>
    intro m hnd hndm hsub
    have hdds : d ∉ ds := (List.nodup_cons.mp hnd).1
    have hnd' : ds.Nodup := (List.nodup_cons.mp hnd).2
    rcases hget : dget m d with _ | ts
    · have hne : ∀ b ∈ m, b.1 ≠ d := by
        intro b hb he
        rw [dget_eq_none_iff] at hget
        exact hget (he ▸ List.mem_map.mpr ⟨b, hb, rfl⟩)
      have hsub' : ∀ b ∈ m, b.1 ∈ ds := by
        intro b hb
        rcases List.mem_cons.mp (hsub b hb) with he | h'
        · exact absurd he (hne b hb)
        · exact h'
      have hrec := ih m hnd' hndm hsub'
      simpa [hget, hemp] using hrec
    · obtain ⟨m1, m2, heq, hne1⟩ := dget_split hget
      subst heq
      have h2 := hndm
      rw [List.map_append, List.nodup_append] at h2
      have h3 : d ∉ m2.map Prod.fst ∧ (m2.map Prod.fst).Nodup := by
        have := h2.2.1
        simpa [List.nodup_cons] using this
      have hndm' : ((m1 ++ m2).map Prod.fst).Nodup := by
        rw [List.map_append, List.nodup_append]
        exact ⟨h2.1, h3.2, fun a ha hb => h2.2.2 ha (List.mem_cons_of_mem _ hb)⟩
      have hne2 : ∀ b ∈ m2, b.1 ≠ d := by
        intro b hb he
        exact h3.1 (he ▸ List.mem_map.mpr ⟨b, hb, rfl⟩)
      have hsub' : ∀ b ∈ m1 ++ m2, b.1 ∈ ds := by
        intro b hb
        have hbm : b ∈ m1 ++ (d, ts) :: m2 := by
          rcases List.mem_append.mp hb with h' | h'
          · exact List.mem_append.mpr (Or.inl h')
          · exact List.mem_append.mpr (Or.inr (List.mem_cons_of_mem _ h'))
        have hbne : b.1 ≠ d := by
          rcases List.mem_append.mp hb with h' | h'
          · exact hne1 b h'
          · exact hne2 b h'
        rcases List.mem_cons.mp (hsub b hbm) with he | h'
        · exact absurd he hbne
        · exact h'
      have hlook : ∀ d' ∈ ds, dget (m1 ++ (d, ts) :: m2) d' = dget (m1 ++ m2) d' := by
        intro d' hd'
        have hdne : d ≠ d' := fun he => hdds (he ▸ hd')
        rw [dget_append, dget_append]
        rcases dget m1 d' with _ | w
        · simp [dget, hdne]
        · simp
      have hrec := ih (m1 ++ m2) hnd' hndm' hsub'
      have hmapeq : (ds.map fun d' => h d' ((dget (m1 ++ (d, ts) :: m2) d').getD []))
          = ds.map fun d' => h d' ((dget (m1 ++ m2) d').getD []) :=
        List.map_congr_left fun d' hd' => by rw [hlook d' hd']
      have e1 : ((d :: ds).map fun d' =>
              h d' ((dget (m1 ++ (d, ts) :: m2) d').getD [])).flatten
          = h d ts ++ (ds.map fun d' =>
              h d' ((dget (m1 ++ m2) d').getD [])).flatten := by
        rw [List.map_cons, List.flatten_cons, hget, hmapeq]
        rfl
      have e3 : ((m1 ++ (d, ts) :: m2).map fun b => h b.1 b.2).flatten
          = ((m1.map fun b => h b.1 b.2).flatten ++ h d ts)
              ++ (m2.map fun b => h b.1 b.2).flatten := by
        rw [List.map_append, List.flatten_append, List.map_cons, List.flatten_cons,
          List.append_assoc]
      rw [e1, e3]
      refine (List.Perm.append_left _ hrec).trans ?_
      rw [List.map_append, List.flatten_append, ← List.append_assoc]
      exact List.Perm.append_right _ List.perm_append_comm

/-- C1 (counterexample): a session holding a task in the dynamically created
bucket `work` does not round-trip — serialize emits a `Work` key, but the
canonical loader reads only the eight day keys, so the load succeeds and
silently drops the task. -/
theorem roundtrip_counterexample :
    ("work", JValue.str "x", JValue.str "Pending")
      ∈ triples (TaskManager.init.add "work" "x" .PENDING).1 ∧
    (load_data (TaskManager.init.add "work" "x" .PENDING).1
        (TaskManager.init.add "work" "x" .PENDING).1.to_dict).2 = true ∧
    ("work", JValue.str "x", JValue.str "Pending")
      ∉ triples (load_data (TaskManager.init.add "work" "x" .PENDING).1
          (TaskManager.init.add "work" "x" .PENDING).1.to_dict).1 :=
  ⟨by decide, by decide, by decide⟩

/-- C1 (amended): for every session all of whose bucket names are among the
eight canonical ones (with pairwise distinct bucket keys, as Python dicts
guarantee), `deserialize(serialize(S))` succeeds and reproduces exactly the
multiset of (bucket, name, status) triples of `S` (ids are renumbered
0..N-1 per bucket); tasks in dynamically created non-canonical buckets are
instead dropped by the round trip. -/
theorem roundtrip_amended (tm : TaskManager)
    (hsub : ∀ b ∈ tm.daily_tasks, b.1 ∈ days)
    (hnd : (tm.daily_tasks.map Prod.fst).Nodup) :
    (load_data tm tm.to_dict).2 = true ∧
    (triples (load_data tm tm.to_dict).1).Perm (triples tm) := by
  have hinj : ∀ d1 ∈ days, ∀ d2 ∈ days, pyCapitalize d1 = pyCapitalize d2 → d1 = d2 := by
    decide
  have hcapne : ∀ d ∈ days, ∀ d' ∈ days, pyCapitalize d' ≠ d := by decide
  have hdtne : ∀ d ∈ days, pyCapitalize d ≠ "daily_tasks" := by decide
  have htd : tm.to_dict = .obj (tm.daily_tasks.map fun b =>
      (pyCapitalize b.1,
       JValue.arr (b.2.map fun t => .obj [("task", t.name), ("status", t.status)]))) := rfl
  set kvsD := tm.daily_tasks.map fun b =>
    (pyCapitalize b.1,
     JValue.arr (b.2.map fun t => JValue.obj [("task", t.name), ("status", t.status)]))
    with hkvsD
  have hnl : dget kvsD "daily_tasks" = none := by
    rw [dget_eq_none_iff, hkvsD]
    intro hmem
    rw [List.map_map] at hmem
    rcases List.mem_map.mp hmem with ⟨b, hb, heq⟩
    exact hdtne b.1 (hsub b hb) heq
  have hcap : ∀ d ∈ days, dget kvsD (pyCapitalize d)
      = (dget tm.daily_tasks d).map fun ts =>
          JValue.arr (ts.map fun t => JValue.obj [("task", t.name), ("status", t.status)]) := by
    intro d hd
    rw [hkvsD]
    exact dget_map_capkey
      (fun ts => JValue.arr (ts.map fun t => JValue.obj [("task", t.name), ("status", t.status)]))
      tm.daily_tasks d fun b hb he => hinj b.1 (hsub b hb) d hd he
  have hlow : ∀ d ∈ days, dget kvsD d = none := by
    intro d hd
    rw [dget_eq_none_iff, hkvsD]
    intro hmem
    rw [List.map_map] at hmem
    rcases List.mem_map.mp hmem with ⟨b, hb, heq⟩
    exact hcapne d hd b.1 (hsub b hb) heq
  have hctl : ∀ d ∈ days, canonTasksList (.obj kvsD) d
      = .arr (((dget tm.daily_tasks d).getD []).map fun t =>
          JValue.obj [("task", t.name), ("status", t.status)]) := by
    intro d hd
    show (dget kvsD (pyCapitalize d)).getD ((dget kvsD d).getD (.arr [])) = _
    rw [hcap d hd, hlow d hd]
    rcases dget tm.daily_tasks d with _ | ts
    · rfl
    · rfl
  have hit : ∀ d ∈ days, (canonItems (.obj kvsD) d).isSome := by
    intro d hd
    rw [canonItems_arr (hctl d hd)]
    rfl
  obtain ⟨hs, hdt, _⟩ := loadCanonical_spec tm kvsD hnl hit
  rw [htd]
  refine ⟨hs, ?_⟩
  have hitems : ∀ d ∈ days, (canonItems (.obj kvsD) d).getD []
      = ((dget tm.daily_tasks d).getD []).map fun t =>
          JValue.obj [("task", t.name), ("status", t.status)] := by
    intro d hd
    rw [canonItems_arr (hctl d hd)]
    rfl
  have hday : ∀ d ∈ days,
      (canonTasks 0 ((canonItems (.obj kvsD) d).getD [])).map
          (fun t => (d, t.name, t.status))
        = ((dget tm.daily_tasks d).getD []).map fun t => (d, t.name, t.status) := by
    intro d hd
    have hpair := canonTasks_entries ((dget tm.daily_tasks d).getD []) 0
    have e1 : (canonTasks 0 ((canonItems (.obj kvsD) d).getD [])).map
          (fun t => (d, t.name, t.status))
        = ((canonTasks 0 ((canonItems (.obj kvsD) d).getD [])).map
            (fun t => (t.name, t.status))).map fun p => (d, p.1, p.2) := by
      rw [List.map_map]
      rfl
    have e2 : ((dget tm.daily_tasks d).getD []).map (fun t => (d, t.name, t.status))
        = (((dget tm.daily_tasks d).getD []).map
            (fun t => (t.name, t.status))).map fun p => (d, p.1, p.2) := by
      rw [List.map_map]
      rfl
    rw [e1, e2, hitems d hd, hpair]
  have htri : triples (load_data tm (.obj kvsD)).1
      = (days.map fun d =>
          ((dget tm.daily_tasks d).getD []).map fun t => (d, t.name, t.status)).flatten := by
    rw [triples, hdt, bucketsTriples_flatten, List.map_map]
    congr 1
    refine List.map_congr_left fun d hd => ?_
    show (canonTasks 0 ((canonItems (.obj kvsD) d).getD [])).map
        (fun t => (d, t.name, t.status)) = _
    exact hday d hd
  rw [htri, triples, bucketsTriples_flatten]
  exact perm_buckets (fun d ts => ts.map fun t => (d, t.name, t.status))
    (fun d => rfl) days tm.daily_tasks (by decide) hnd hsub

/-- Witness for `roundtrip_amended` on a concrete canonical-bucket session. -/
theorem roundtrip_amended_witness :
    (load_data sampleTM sampleTM.to_dict).2 = true ∧
    (triples (load_data sampleTM sampleTM.to_dict).1).Perm (triples sampleTM) :=
  roundtrip_amended sampleTM (by decide) (by decide)

end TaskMain
